import Mathlib

/-!
Verification of the Thinc model-visualization notebook
(`examples/05_visualizing_models.ipynb`).

The notebook defines two functions:

* `get_label(layer)` builds the display string
  `f"{layer.name}|({nO}, {nI})".replace(">", "&gt;")`, where each of
  `nO`, `nI` is `layer.get_dim(d)` if `layer.has_dim(d)` else `"?"`.
* `visualize_model(model)` walks `model.layers` in order; for the layer at
  index `i` it creates a `pydot.Node(layer.id, label=get_label(layer))`,
  adds it to the graph, and (for `i >= 1`) adds a directed edge from the
  node of `model.layers[i-1]` to the node of the current layer, but only
  if `dot.get_edge(from_node, to_node)` finds no existing edge between
  that ordered pair.  Finally the graph is rendered and displayed; the
  rendering step is an external output of the built graph and is not part
  of the model here.

Layers are thinc `Model` objects, external to the notebook: each exposes a
`name`, a numeric `id`, and a dimension table where the dimensions `"nO"`
(output size) and `"nI"` (input size) may be present or absent;
`get_dim` raises when the dimension is absent.  The graph objects are
pydot objects, likewise external.  Both are embedded below following the
specification's description of their interface.
-/

namespace Thinc

/-- A layer object, as used by the notebook: a name, a stable numeric
identifier, and the two optional dimensions `"nO"` (output size) and
`"nI"` (input size); `none` means the dimension is not yet known.
The field `extra` stands for all remaining attributes of a thinc `Model`
object, none of which the visualization code reads. -/
structure Layer where
  name : String
  id : Nat
  nO : Option Nat
  nI : Option Nat
  extra : Nat := 0
deriving DecidableEq

/-- The layer's dimension table: the two named dimensions the notebook
queries, `"nO"` and `"nI"`; any other dimension name is absent. -/
def Layer.dim (l : Layer) (d : String) : Option Nat :=
  if d = "nO" then l.nO else if d = "nI" then l.nI else none

/-- `layer.has_dim(d)`: whether the dimension is currently known. -/
def Layer.has_dim (l : Layer) (d : String) : Bool :=
  (l.dim d).isSome

/-- `layer.get_dim(d)`: returns the dimension value, raising (modelled as
`Except.error`) when the dimension is absent, as thinc's `get_dim` does. -/
def Layer.get_dim (l : Layer) (d : String) : Except String Nat :=
  match l.dim d with
  | some v => Except.ok v
  | none => Except.error ("Cannot get dimension " ++ d)

/-- The value of a dimension that is known (defaulting to 0 when absent;
callers guard with `has_dim`, under which the default is never used). -/
def Layer.dim_val (l : Layer) (d : String) : Nat :=
  (l.dim d).getD 0

/-- `.replace(">", "&gt;")` on the character list of a string.  The
pattern is the single character `>`, so the replacement proceeds
character by character. -/
def escapeGtL : List Char → List Char
  | [] => []
  | c :: cs => if c = '>' then '&' :: 'g' :: 't' :: ';' :: escapeGtL cs else c :: escapeGtL cs

/-- `s.replace(">", "&gt;")` for a string `s`. -/
def escapeGt (s : String) : String :=
  String.mk (escapeGtL s.data)

/-- The string `get_label(layer)` computes:
`f"{layer.name}|({nO}, {nI})".replace(">", "&gt;")` with `nO`/`nI` the
guarded dimension lookups.  This is the total form, with the
`has_dim`-guarded `get_dim` call collapsed into `dim_val`; the lemma
`get_label_eq_ok` below shows the faithful raising form `get_label`
always succeeds with this value. -/
def label_str (layer : Layer) : String :=
  let nO : String := if layer.has_dim "nO" then toString (layer.dim_val "nO") else "?"
  let nI : String := if layer.has_dim "nI" then toString (layer.dim_val "nI") else "?"
  escapeGt (layer.name ++ "|(" ++ nO ++ ", " ++ nI ++ ")")

/-- `get_label` from the notebook, with thinc's raising `get_dim`
modelled as `Except`:

```
def get_label(layer):
    layer_name = layer.name
    nO = layer.get_dim("nO") if layer.has_dim("nO") else "?"
    nI = layer.get_dim("nI") if layer.has_dim("nI") else "?"
    return f"{layer.name}|({nO}, {nI})".replace(">", "&gt;")
```
-/
def get_label (layer : Layer) : Except String String := do
  let nO : String ← if layer.has_dim "nO" then Except.map toString (layer.get_dim "nO")
                    else Except.ok "?"
  let nI : String ← if layer.has_dim "nI" then Except.map toString (layer.get_dim "nI")
                    else Except.ok "?"
  Except.ok (escapeGt (layer.name ++ "|(" ++ nO ++ ", " ++ nI ++ ")"))

/-- Modelled from the spec: the pydot graph object built by
`visualize_model`, reduced to the data the claims are about.  Nodes are
recorded in insertion order as `(identifier, label)` pairs (`pydot.Node`
is named by the layer's identifier and carries the label); edges are
ordered pairs of node identifiers ("Graph edge: directed, connects
consecutive Layers' nodes; at most one edge per ordered pair (idempotent
insertion — an edge is only added if it does not already exist)").
Styling attributes (`rankdir`, node and edge defaults) carry no
graph-structural content and are omitted. -/
structure Dot where
  nodes : List (Nat × String)
  edges : List (Nat × Nat)
deriving DecidableEq

/-- `pydot.Dot()`: the fresh empty graph each invocation starts from. -/
def Dot.empty : Dot := ⟨[], []⟩

/-- Modelled from the spec: `dot.get_edge(from_node, to_node)` finds an
existing edge between the ordered pair of node identifiers. -/
def Dot.get_edge (dot : Dot) (src dst : Nat) : Bool :=
  decide ((src, dst) ∈ dot.edges)

/-- `dot.add_node(pydot.Node(id, label=label))`. -/
def Dot.add_node (dot : Dot) (i : Nat) (label : String) : Dot :=
  { dot with nodes := dot.nodes ++ [(i, label)] }

/-- `dot.add_edge(pydot.Edge(from_node, to_node))`; edge endpoints are
the nodes' names, i.e. the layer identifiers. -/
def Dot.add_edge (dot : Dot) (src dst : Nat) : Dot :=
  { dot with edges := dot.edges ++ [(src, dst)] }

/-- The pipeline object: `model.layers` is its ordered list of layers. -/
structure Pipeline where
  layers : List Layer
deriving DecidableEq

/-- The loop body of `visualize_model`, iterated over the remaining
layers.  `prev` is the layer of the previous iteration: in the notebook
the edge source is looked up as `nodes[model.layers[i - 1].id]`, and for
`i ≥ 1` the layer `model.layers[i - 1]` is exactly the layer handled in
the previous iteration, whose node is named by its identifier; the
`nodes` dictionary therefore adds nothing beyond that identifier and is
not represented separately. -/
def viz_go (dot : Dot) (prev : Layer) : List Layer → Dot
  | [] => dot
  | layer :: rest =>
    let dot1 := dot.add_node layer.id (label_str layer)
    let dot2 := if dot1.get_edge prev.id layer.id then dot1
                else dot1.add_edge prev.id layer.id
    viz_go dot2 layer rest

/-- `visualize_model` from the notebook: one node per layer in order,
and from the second layer on an edge from the previous layer's node,
added only when no edge between that ordered pair exists yet.  The `i ==
0: continue` branch of the Python loop is the split between the first
layer and the rest.  The final `display(SVG(dot.create_svg()))` renders
the built graph and is outside the model; the function returns the graph
it built.  Labels are `label_str`, the always-returned value of
`get_label` (lemma `get_label_eq_ok`). -/
def visualize_model (model : Pipeline) : Dot :=
  match model.layers with
  | [] => Dot.empty
  | first :: rest => viz_go (Dot.empty.add_node first.id (label_str first)) first rest

/-- The loop body again, with the pipeline object threaded through the
iteration state: the Python loop body has the `model` object in scope at
every step, so mutation of it would be expressible here; the body only
reads it and passes it on unchanged. -/
def viz_go_st (dot : Dot) (model : Pipeline) (prev : Layer) : List Layer → Dot × Pipeline
  | [] => (dot, model)
  | layer :: rest =>
    let dot1 := dot.add_node layer.id (label_str layer)
    let dot2 := if dot1.get_edge prev.id layer.id then dot1
                else dot1.add_edge prev.id layer.id
    viz_go_st dot2 model layer rest

/-- `visualize_model` with the pipeline threaded through the state,
returning the graph together with the pipeline as it stands after the
pass. -/
def visualize_model_st (model : Pipeline) : Dot × Pipeline :=
  match model.layers with
  | [] => (Dot.empty, model)
  | first :: rest => viz_go_st (Dot.empty.add_node first.id (label_str first)) model first rest

/-- Spec-side rendering of one dimension: the value when known, the
placeholder `?` when not. -/
def dim_str : Option Nat → String
  | some v => toString v
  | none => "?"

/-- Spec-side list of the ordered pairs of identifiers of consecutive
layers of a pipeline. -/
def consecPairs : List Layer → List (Nat × Nat)
  | a :: b :: rest => (a.id, b.id) :: consecPairs (b :: rest)
  | _ => []

/-- Spec-side idempotent edge insertion: add the edge only if it is not
already present. -/
def dedupInsert (es : List (Nat × Nat)) (e : Nat × Nat) : List (Nat × Nat) :=
  if e ∈ es then es else es ++ [e]

/-- Spec-side view of a layer: the data the visualization reads — name,
identifier and the two dimensions.  Two layers with the same view are
indistinguishable to the drawing code. -/
def Layer.view (l : Layer) : String × Nat × Option Nat × Option Nat :=
  (l.name, l.id, l.nO, l.nI)

example : label_str ⟨"maxout", 3, none, none, 0⟩ = "maxout|(?, ?)" := by decide
example : label_str ⟨"relu", 4, some 32, some 16, 0⟩ = "relu|(32, 16)" := by decide
example : label_str ⟨"a>>b", 5, none, some 7, 0⟩ = "a&gt;&gt;b|(?, 7)" := by decide
example : get_label ⟨"maxout", 3, some 128, some 32, 0⟩ = Except.ok "maxout|(128, 32)" := rfl
example :
    visualize_model ⟨[⟨"a", 1, none, none, 0⟩, ⟨"b", 2, some 3, none, 0⟩]⟩ =
      ⟨[(1, "a|(?, ?)"), (2, "b|(3, ?)")], [(1, 2)]⟩ := by decide
example :
    (visualize_model ⟨[⟨"a", 1, none, none, 0⟩, ⟨"b", 2, none, none, 0⟩,
      ⟨"a", 1, none, none, 0⟩, ⟨"b", 2, none, none, 0⟩]⟩).edges = [(1, 2), (2, 1)] := by decide

theorem str_ext {s t : String} (h : s.data = t.data) : s = t := by
  cases s
  cases t
  exact congrArg String.mk h

theorem escapeGtL_append (xs ys : List Char) :
    escapeGtL (xs ++ ys) = escapeGtL xs ++ escapeGtL ys := by
  induction xs with
  | nil => rfl
  | cons c cs ih => by_cases hc : c = '>' <;> simp [escapeGtL, hc, ih]

theorem escapeGtL_of_no_gt (cs : List Char) (h : '>' ∉ cs) : escapeGtL cs = cs := by
  induction cs with
  | nil => rfl
  | cons c cs ih =>
    rw [List.mem_cons, not_or] at h
    have hc : c ≠ '>' := fun hh => h.1 hh.symm
    simp [escapeGtL, hc, ih h.2]

theorem escapeGt_data (s : String) : (escapeGt s).data = escapeGtL s.data := rfl

theorem escapeGt_append (s t : String) : escapeGt (s ++ t) = escapeGt s ++ escapeGt t := by
  apply str_ext
  simp [escapeGt_data, String.data_append, escapeGtL_append]

theorem escapeGt_of_no_gt (s : String) (h : '>' ∉ s.data) : escapeGt s = s := by
  apply str_ext
  simp [escapeGt_data, escapeGtL_of_no_gt _ h]

theorem digitChar_ne_gt (m : Nat) (hm : m < 10) : Nat.digitChar m ≠ '>' := by
  interval_cases m <;> decide

theorem mem_toDigitsCore (f : Nat) : ∀ (n : Nat) (ds : List Char) (c : Char),
    c ∈ Nat.toDigitsCore 10 f n ds → c ∈ ds ∨ ∃ m, m < 10 ∧ c = Nat.digitChar m := by
  induction f with
  | zero =>
    intro n ds c hc
    simp only [Nat.toDigitsCore] at hc
    exact Or.inl hc
  | succ f ih =>
    intro n ds c hc
    have hlt : n % 10 < 10 := Nat.mod_lt n (by decide)
    simp only [Nat.toDigitsCore] at hc
    split at hc
    · rcases List.mem_cons.mp hc with h | h
      · exact Or.inr ⟨n % 10, hlt, h⟩
      · exact Or.inl h
    · rcases ih (n / 10) (Nat.digitChar (n % 10) :: ds) c hc with h | h
      · rcases List.mem_cons.mp h with h1 | h1
        · exact Or.inr ⟨n % 10, hlt, h1⟩
        · exact Or.inl h1
      · exact Or.inr h

theorem repr_no_gt (n : Nat) : '>' ∉ (Nat.repr n).data := by
  intro h
  have h2 : '>' ∈ Nat.toDigitsCore 10 (n + 1) n [] := h
  rcases mem_toDigitsCore (n + 1) n [] '>' h2 with h3 | ⟨m, hm, h3⟩
  · simp at h3
  · exact digitChar_ne_gt m hm h3.symm

theorem toString_nat_no_gt (n : Nat) : '>' ∉ (toString n).data :=
  repr_no_gt n

theorem escapeGt_toString_nat (n : Nat) : escapeGt (toString n) = toString n :=
  escapeGt_of_no_gt _ (toString_nat_no_gt n)

theorem escapeGt_lit_bar : escapeGt "|(" = "|(" := rfl

theorem escapeGt_lit_comma : escapeGt ", " = ", " := rfl

theorem escapeGt_lit_close : escapeGt ")" = ")" := rfl

theorem escapeGt_lit_qm : escapeGt "?" = "?" := rfl

theorem get_label_eq_ok (l : Layer) : get_label l = Except.ok (label_str l) := by
  unfold get_label label_str Layer.has_dim Layer.get_dim Layer.dim_val
  cases hO : l.dim "nO" <;> cases hI : l.dim "nI" <;>
    simp [hO, hI, Except.map, bind, Except.bind]

theorem label_str_spec (l : Layer) :
    label_str l =
      escapeGt l.name ++ "|(" ++ dim_str (l.dim "nO") ++ ", " ++ dim_str (l.dim "nI") ++ ")" := by
  unfold label_str
  cases hO : l.dim "nO" <;> cases hI : l.dim "nI" <;>
    simp [Layer.has_dim, Layer.dim_val, hO, hI, dim_str, escapeGt_append, escapeGt_toString_nat,
      escapeGt_lit_bar, escapeGt_lit_comma, escapeGt_lit_close, escapeGt_lit_qm]

theorem viz_go_nodes (ls : List Layer) : ∀ (dot : Dot) (prev : Layer),
    (viz_go dot prev ls).nodes = dot.nodes ++ ls.map (fun l => (l.id, label_str l)) := by
  induction ls with
  | nil => intro dot prev; simp [viz_go]
  | cons a rest ih =>
    intro dot prev
    simp only [viz_go]
    split <;> simp [ih, Dot.add_node, Dot.add_edge]

theorem viz_go_edges (ls : List Layer) : ∀ (dot : Dot) (prev : Layer),
    (viz_go dot prev ls).edges = (consecPairs (prev :: ls)).foldl dedupInsert dot.edges := by
  induction ls with
  | nil => intro dot prev; simp [viz_go, consecPairs]
  | cons a rest ih =>
    intro dot prev
    simp only [viz_go, consecPairs, List.foldl]
    rw [ih]
    congr 1
    by_cases h : (prev.id, a.id) ∈ dot.edges <;>
      simp [Dot.get_edge, Dot.add_node, Dot.add_edge, dedupInsert, h]

theorem visualize_model_nodes (p : Pipeline) :
    (visualize_model p).nodes = p.layers.map (fun l => (l.id, label_str l)) := by
  obtain ⟨ls⟩ := p
  cases ls with
  | nil => rfl
  | cons a rest =>
    show (viz_go (Dot.empty.add_node a.id (label_str a)) a rest).nodes = _
    simp [viz_go_nodes, Dot.add_node, Dot.empty]

theorem visualize_model_edges (p : Pipeline) :
    (visualize_model p).edges = (consecPairs p.layers).foldl dedupInsert [] := by
  obtain ⟨ls⟩ := p
  cases ls with
  | nil => rfl
  | cons a rest =>
    show (viz_go (Dot.empty.add_node a.id (label_str a)) a rest).edges = _
    rw [viz_go_edges]
    rfl

theorem dedupInsert_sub (es : List (Nat × Nat)) (e x : Nat × Nat) (h : x ∈ dedupInsert es e) :
    x ∈ es ∨ x = e := by
  unfold dedupInsert at h
  split at h
  · exact Or.inl h
  · rcases List.mem_append.mp h with h1 | h1
    · exact Or.inl h1
    · simp at h1; exact Or.inr h1

theorem dedupInsert_nodup (es : List (Nat × Nat)) (e : Nat × Nat) (h : es.Nodup) :
    (dedupInsert es e).Nodup := by
  unfold dedupInsert
  split
  · exact h
  · rename_i hne
    simp [List.nodup_append, h]
    exact hne

theorem foldl_dedupInsert_nodup (ps : List (Nat × Nat)) : ∀ es, es.Nodup →
    (ps.foldl dedupInsert es).Nodup := by
  induction ps with
  | nil => intro es h; exact h
  | cons p ps ih => intro es h; exact ih _ (dedupInsert_nodup es p h)

theorem foldl_dedupInsert_length (ps : List (Nat × Nat)) : ∀ es,
    (ps.foldl dedupInsert es).length ≤ es.length + ps.length := by
  induction ps with
  | nil => intro es; simp
  | cons p ps ih =>
    intro es
    have h1 := ih (dedupInsert es p)
    have h2 : (dedupInsert es p).length ≤ es.length + 1 := by
      unfold dedupInsert; split <;> simp
    simp only [List.foldl, List.length_cons]
    omega

theorem mem_foldl_dedupInsert (ps : List (Nat × Nat)) : ∀ es x, x ∈ ps.foldl dedupInsert es →
    x ∈ es ∨ x ∈ ps := by
  induction ps with
  | nil => intro es x h; exact Or.inl h
  | cons p ps ih =>
    intro es x h
    simp only [List.foldl] at h
    rcases ih _ _ h with h1 | h1
    · rcases dedupInsert_sub es p x h1 with h2 | h2
      · exact Or.inl h2
      · exact Or.inr (by simp [h2])
    · exact Or.inr (List.mem_cons_of_mem _ h1)

theorem foldl_dedupInsert_fresh (ps : List (Nat × Nat)) : ∀ es, ps.Nodup →
    (∀ x ∈ ps, x ∉ es) → ps.foldl dedupInsert es = es ++ ps := by
  induction ps with
  | nil => intro es _ _; simp
  | cons p ps ih =>
    intro es hnd hf
    have hpe : p ∉ es := hf p (by simp)
    have hstep : dedupInsert es p = es ++ [p] := by unfold dedupInsert; simp [hpe]
    rcases List.nodup_cons.mp hnd with ⟨hpnotin, hnd2⟩
    have hf2 : ∀ x ∈ ps, x ∉ es ++ [p] := by
      intro x hx
      simp only [List.mem_append, List.mem_singleton, not_or]
      exact ⟨hf x (List.mem_cons_of_mem _ hx), fun hxp => hpnotin (hxp ▸ hx)⟩
    simp only [List.foldl, hstep]
    rw [ih (es ++ [p]) hnd2 hf2]
    simp

theorem consecPairs_length (ls : List Layer) : (consecPairs ls).length = ls.length - 1 := by
  induction ls with
  | nil => rfl
  | cons a rest ih =>
    cases rest with
    | nil => rfl
    | cons b rest2 =>
      simp only [consecPairs, List.length_cons] at ih ⊢
      omega

theorem mem_consecPairs (ls : List Layer) : ∀ e ∈ consecPairs ls,
    ∃ i a b, ls[i]? = some a ∧ ls[i + 1]? = some b ∧ e = (a.id, b.id) := by
  induction ls with
  | nil => intro e he; simp [consecPairs] at he
  | cons a rest ih =>
    cases rest with
    | nil => intro e he; simp [consecPairs] at he
    | cons b rest2 =>
      intro e he
      rcases List.mem_cons.mp he with h | h
      · exact ⟨0, a, b, by simp, by simp, h⟩
      · rcases ih e h with ⟨i, x, y, h1, h2, h3⟩
        exact ⟨i + 1, x, y, by simpa using h1, by simpa using h2, h3⟩

theorem consecPairs_fst_mem (ls : List Layer) : ∀ e ∈ consecPairs ls,
    e.1 ∈ ls.map Layer.id := by
  induction ls with
  | nil => intro e he; simp [consecPairs] at he
  | cons a rest ih =>
    cases rest with
    | nil => intro e he; simp [consecPairs] at he
    | cons b rest2 =>
      intro e he
      rcases List.mem_cons.mp he with h | h
      · simp [h]
      · simp only [List.map_cons]
        exact List.mem_cons_of_mem _ (by simpa using ih e h)

theorem consecPairs_nodup (ls : List Layer) (h : (ls.map Layer.id).Nodup) :
    (consecPairs ls).Nodup := by
  induction ls with
  | nil => exact List.nodup_nil
  | cons a rest ih =>
    cases rest with
    | nil => exact List.nodup_nil
    | cons b rest2 =>
      rw [List.map_cons, List.nodup_cons] at h
      show ((a.id, b.id) :: consecPairs (b :: rest2)).Nodup
      refine List.nodup_cons.mpr ⟨?_, ih h.2⟩
      intro hmem
      exact h.1 (by simpa using consecPairs_fst_mem (b :: rest2) _ hmem)

theorem view_name {a b : Layer} (h : a.view = b.view) : a.name = b.name :=
  congrArg (fun v => v.1) h

theorem view_id {a b : Layer} (h : a.view = b.view) : a.id = b.id :=
  congrArg (fun v => v.2.1) h

theorem view_nO {a b : Layer} (h : a.view = b.view) : a.nO = b.nO :=
  congrArg (fun v => v.2.2.1) h

theorem view_nI {a b : Layer} (h : a.view = b.view) : a.nI = b.nI :=
  congrArg (fun v => v.2.2.2) h

theorem view_label {a b : Layer} (h : a.view = b.view) : label_str a = label_str b := by
  have h1 := view_name h
  have h2 := view_nO h
  have h3 := view_nI h
  unfold label_str Layer.has_dim Layer.dim_val Layer.dim
  rw [h1, h2, h3]

theorem viz_go_congr : ∀ (ls ls2 : List Layer), ls.map Layer.view = ls2.map Layer.view →
    ∀ (dot : Dot) (prev prev2 : Layer), prev.view = prev2.view →
      viz_go dot prev ls = viz_go dot prev2 ls2 := by
  intro ls
  induction ls with
  | nil =>
    intro ls2 h dot prev prev2 _
    cases ls2 with
    | nil => rfl
    | cons b bs => simp at h
  | cons a as ih =>
    intro ls2 h dot prev prev2 hp
    cases ls2 with
    | nil => simp at h
    | cons b bs =>
      simp only [List.map_cons, List.cons.injEq] at h
      simp only [viz_go]
      rw [view_label h.1, view_id h.1, view_id hp]
      exact ih bs h.2 _ a b h.1

theorem viz_go_st_eq (ls : List Layer) : ∀ (dot : Dot) (model : Pipeline) (prev : Layer),
    viz_go_st dot model prev ls = (viz_go dot prev ls, model) := by
  induction ls with
  | nil => intro dot model prev; rfl
  | cons a rest ih =>
    intro dot model prev
    simp only [viz_go_st, viz_go]
    exact ih _ _ _

/-- Claim C1: for every layer, `get_label` returns
`name|(nO, nI)` — the name with every `>` escaped to `&gt;`, the output
and input dimension values when known and the placeholder `?` when not;
in particular a layer with both dimensions unknown yields `name|(?, ?)`
and a layer with output size 32 and input size 16 yields
`name|(32, 16)`. -/
theorem get_label_format (l : Layer) (name : String) (i1 i2 e1 e2 : Nat)
    (hname : '>' ∉ name.data) :
    get_label l = Except.ok (escapeGt l.name ++ "|(" ++ dim_str (l.dim "nO") ++ ", " ++
      dim_str (l.dim "nI") ++ ")") ∧
    get_label ⟨name, i1, none, none, e1⟩ = Except.ok (name ++ "|(?, ?)") ∧
    get_label ⟨name, i2, some 32, some 16, e2⟩ = Except.ok (name ++ "|(32, 16)") := by
  refine ⟨?_, ?_, ?_⟩
  · rw [get_label_eq_ok, label_str_spec]
  · rw [get_label_eq_ok]
    congr 1
    rw [label_str_spec]
    simp only [Layer.dim, dim_str]
    rw [escapeGt_of_no_gt name hname]
    apply str_ext
    simp only [String.data_append, List.append_assoc]
    congr 1
  · rw [get_label_eq_ok]
    congr 1
    rw [label_str_spec]
    simp only [Layer.dim, dim_str]
    rw [escapeGt_of_no_gt name hname]
    apply str_ext
    simp only [String.data_append, List.append_assoc]
    congr 1

theorem get_label_format_witness :
    '>' ∉ "maxout".data ∧
    (get_label ⟨"maxout", 7, none, none, 0⟩ =
      Except.ok (escapeGt (Layer.name ⟨"maxout", 7, none, none, 0⟩) ++ "|(" ++
        dim_str (Layer.dim ⟨"maxout", 7, none, none, 0⟩ "nO") ++ ", " ++
        dim_str (Layer.dim ⟨"maxout", 7, none, none, 0⟩ "nI") ++ ")") ∧
    get_label ⟨"maxout", 1, none, none, 0⟩ = Except.ok ("maxout" ++ "|(?, ?)") ∧
    get_label ⟨"maxout", 2, some 32, some 16, 0⟩ = Except.ok ("maxout" ++ "|(32, 16)")) :=
  ⟨by decide, get_label_format ⟨"maxout", 7, none, none, 0⟩ "maxout" 1 2 0 0 (by decide)⟩

/-- Claim C2: the graph built by `visualize_model` never contains two
edges with the same ordered pair of layer identifiers: its edge list has
no duplicates, for every pipeline — including pipelines with repeated
layers of identical identifiers; and since every invocation starts from
the fresh empty graph `Dot.empty`, this holds for each of any number of
invocations on the same pipeline. -/
theorem edges_nodup (p : Pipeline) : (visualize_model p).edges.Nodup := by
  rw [visualize_model_edges]
  exact foldl_dedupInsert_nodup _ _ List.nodup_nil

/-- Claim C3: a single invocation of `visualize_model` on a pipeline of
N layers creates exactly N nodes — one per layer, keyed by the layer's
identifier and carrying its label — and at most N − 1 edges. -/
theorem node_edge_count (p : Pipeline) :
    (visualize_model p).nodes = p.layers.map (fun l => (l.id, label_str l)) ∧
    (visualize_model p).nodes.length = p.layers.length ∧
    (visualize_model p).edges.length ≤ p.layers.length - 1 := by
  refine ⟨visualize_model_nodes p, ?_, ?_⟩
  · rw [visualize_model_nodes]
    simp
  · rw [visualize_model_edges]
    have h1 := foldl_dedupInsert_length (consecPairs p.layers) []
    have h2 := consecPairs_length p.layers
    simp only [List.length_nil, Nat.zero_add] at h1
    omega

/-- Claim C4: every edge of the built graph goes from the node of the
layer at some position i to the node of the layer at position i + 1:
edges connect exactly consecutive ordered pairs of the pipeline, and no
edge is attempted for the first layer. -/
theorem edges_are_consecutive (p : Pipeline) (e : Nat × Nat)
    (he : e ∈ (visualize_model p).edges) :
    ∃ i a b, p.layers[i]? = some a ∧ p.layers[i + 1]? = some b ∧ e = (a.id, b.id) := by
  rw [visualize_model_edges] at he
  rcases mem_foldl_dedupInsert _ _ _ he with h | h
  · simp at h
  · exact mem_consecPairs _ e h

theorem edges_are_consecutive_witness :
    (1, 2) ∈ (visualize_model ⟨[⟨"a", 1, none, none, 0⟩, ⟨"b", 2, none, none, 0⟩]⟩).edges ∧
    ∃ i a b, (Pipeline.layers ⟨[⟨"a", 1, none, none, 0⟩, ⟨"b", 2, none, none, 0⟩]⟩)[i]? = some a ∧
      (Pipeline.layers ⟨[⟨"a", 1, none, none, 0⟩, ⟨"b", 2, none, none, 0⟩]⟩)[i + 1]? = some b ∧
      (1, 2) = (a.id, b.id) :=
  ⟨by decide, edges_are_consecutive ⟨[⟨"a", 1, none, none, 0⟩, ⟨"b", 2, none, none, 0⟩]⟩
    (1, 2) (by decide)⟩

/-- Claim C5: `get_label` is pure and total: with thinc's raising
`get_dim` modelled as `Except`, every call returns `Except.ok` — the
unknown-dimension error branch is unreachable because each `get_dim`
call is guarded by the corresponding `has_dim` check — and the returned
value is the total function `label_str` of the layer. -/
theorem get_label_total (l : Layer) : get_label l = Except.ok (label_str l) :=
  get_label_eq_ok l

/-- Claim C6: `visualize_model` tolerates pipelines of length 0 and 1:
the empty pipeline yields the graph with no nodes and no edges, and a
one-layer pipeline yields exactly one node — keyed by the layer's
identifier, carrying its label — and no edges. -/
theorem small_pipelines :
    visualize_model ⟨[]⟩ = Dot.empty ∧
    ∀ l : Layer, visualize_model ⟨[l]⟩ = ⟨[(l.id, label_str l)], []⟩ :=
  ⟨rfl, fun _ => rfl⟩

/-- Claim C7: once both dimensions of a layer are known (`has_dim` holds
for `"nO"` and `"nI"`), the node that `visualize_model` creates for it
carries the label with the concrete integer dimension values in place of
the `?` placeholders; the label is a function of the layer's current
name and dimension state only. -/
theorem label_concrete_after_inference (p : Pipeline) (l : Layer) (hl : l ∈ p.layers)
    (hO : l.has_dim "nO" = true) (hI : l.has_dim "nI" = true) :
    (l.id, escapeGt l.name ++ "|(" ++ toString (l.dim_val "nO") ++ ", " ++
      toString (l.dim_val "nI") ++ ")") ∈ (visualize_model p).nodes := by
  have hO2 : (l.dim "nO").isSome = true := hO
  have hI2 : (l.dim "nI").isSome = true := hI
  rcases Option.isSome_iff_exists.mp hO2 with ⟨vO, hvO⟩
  rcases Option.isSome_iff_exists.mp hI2 with ⟨vI, hvI⟩
  have hlab : label_str l = escapeGt l.name ++ "|(" ++ toString (l.dim_val "nO") ++ ", " ++
      toString (l.dim_val "nI") ++ ")" := by
    rw [label_str_spec, hvO, hvI]
    simp [dim_str, Layer.dim_val, hvO, hvI]
  rw [visualize_model_nodes, ← hlab]
  exact List.mem_map_of_mem _ hl

theorem label_concrete_after_inference_witness :
    (⟨"relu", 3, some 32, some 784, 0⟩ : Layer) ∈
      Pipeline.layers ⟨[⟨"relu", 3, some 32, some 784, 0⟩]⟩ ∧
    Layer.has_dim ⟨"relu", 3, some 32, some 784, 0⟩ "nO" = true ∧
    Layer.has_dim ⟨"relu", 3, some 32, some 784, 0⟩ "nI" = true ∧
    (Layer.id ⟨"relu", 3, some 32, some 784, 0⟩,
      escapeGt (Layer.name ⟨"relu", 3, some 32, some 784, 0⟩) ++ "|(" ++
        toString (Layer.dim_val ⟨"relu", 3, some 32, some 784, 0⟩ "nO") ++ ", " ++
        toString (Layer.dim_val ⟨"relu", 3, some 32, some 784, 0⟩ "nI") ++ ")") ∈
      (visualize_model ⟨[⟨"relu", 3, some 32, some 784, 0⟩]⟩).nodes :=
  ⟨by decide, by decide, by decide,
    label_concrete_after_inference ⟨[⟨"relu", 3, some 32, some 784, 0⟩]⟩
      ⟨"relu", 3, some 32, some 784, 0⟩ (by decide) (by decide) (by decide)⟩

/-- Claim C8: the drawing pass leaves the pipeline and its layers
unchanged: threading the pipeline object through the iteration state,
the pass returns it exactly as given — every layer's name, identifier
and dimensions, and the layer sequence itself, are what they were before
the call — and the graph built is that of `visualize_model`. -/
theorem visualize_no_mutation (p : Pipeline) :
    visualize_model_st p = (visualize_model p, p) := by
  obtain ⟨ls⟩ := p
  cases ls with
  | nil => rfl
  | cons a rest => exact viz_go_st_eq rest _ _ _

/-- Claim C9: `visualize_model` is deterministic in the graph it
constructs: two pipelines whose layer sequences agree on every layer's
name, identifier and dimension state (`Layer.view`) — whatever their
other attributes (`extra`) — produce identical graphs: same node list,
same labels, same edge list; each invocation starts from the fresh
`Dot.empty`, so no state carries over between invocations. -/
theorem visualize_deterministic (p q : Pipeline)
    (h : p.layers.map Layer.view = q.layers.map Layer.view) :
    visualize_model p = visualize_model q := by
  obtain ⟨ls⟩ := p
  obtain ⟨ls2⟩ := q
  cases ls with
  | nil =>
    cases ls2 with
    | nil => rfl
    | cons b bs => simp at h
  | cons a as =>
    cases ls2 with
    | nil => simp at h
    | cons b bs =>
      simp only [List.map_cons, List.cons.injEq] at h
      show viz_go (Dot.empty.add_node a.id (label_str a)) a as =
        viz_go (Dot.empty.add_node b.id (label_str b)) b bs
      rw [view_label h.1, view_id h.1]
      exact viz_go_congr as bs h.2 _ a b h.1

theorem visualize_deterministic_witness :
    (Pipeline.layers ⟨[⟨"a", 1, some 2, none, 5⟩]⟩).map Layer.view =
      (Pipeline.layers ⟨[⟨"a", 1, some 2, none, 9⟩]⟩).map Layer.view ∧
    visualize_model ⟨[⟨"a", 1, some 2, none, 5⟩]⟩ =
      visualize_model ⟨[⟨"a", 1, some 2, none, 9⟩]⟩ :=
  ⟨by decide, visualize_deterministic ⟨[⟨"a", 1, some 2, none, 5⟩]⟩
    ⟨[⟨"a", 1, some 2, none, 9⟩]⟩ (by decide)⟩

/-- Claim C10: on a pipeline of at least one layer whose identifiers are
pairwise distinct, `visualize_model` adds exactly N − 1 edges: the
at-most bound is attained, one edge per consecutive pair. -/
theorem edges_exact_when_ids_distinct (p : Pipeline) (hne : p.layers ≠ [])
    (hids : (p.layers.map Layer.id).Nodup) :
    (visualize_model p).edges.length = p.layers.length - 1 := by
  have _hne := hne
  rw [visualize_model_edges,
    foldl_dedupInsert_fresh _ _ (consecPairs_nodup _ hids) (fun x hx => by simp)]
  simp [consecPairs_length]

theorem edges_exact_when_ids_distinct_witness :
    Pipeline.layers ⟨[⟨"a", 1, none, none, 0⟩, ⟨"b", 2, none, none, 0⟩,
      ⟨"c", 3, none, none, 0⟩]⟩ ≠ [] ∧
    ((Pipeline.layers ⟨[⟨"a", 1, none, none, 0⟩, ⟨"b", 2, none, none, 0⟩,
      ⟨"c", 3, none, none, 0⟩]⟩).map Layer.id).Nodup ∧
    (visualize_model ⟨[⟨"a", 1, none, none, 0⟩, ⟨"b", 2, none, none, 0⟩,
      ⟨"c", 3, none, none, 0⟩]⟩).edges.length =
      (Pipeline.layers ⟨[⟨"a", 1, none, none, 0⟩, ⟨"b", 2, none, none, 0⟩,
        ⟨"c", 3, none, none, 0⟩]⟩).length - 1 :=
  ⟨by decide, by decide, edges_exact_when_ids_distinct
    ⟨[⟨"a", 1, none, none, 0⟩, ⟨"b", 2, none, none, 0⟩, ⟨"c", 3, none, none, 0⟩]⟩
    (by decide) (by decide)⟩

end Thinc
